import Mathlib

/-!
# Verification of the legacy transaction module

A shallow embedding of `src/transaction.js`: the transaction data model, the
wire codec (`serialize` / `deserialize`), the signature-hash engine
(`hashTransactionForSignature`), the input/output constructors, and `clone`.

Modelling conventions, stated once here:

* JS numbers holding byte values and integer fields become `Nat`.  Wherever a
  field has a fixed wire width the source truncates through
  `convert.numToBytes`, which is modelled with explicit `% 256` steps.
* JS byte arrays become `List Nat`; JS hex strings become `List Nat` of
  character codes (the code point of each character), so that the hex
  conversion collaborators are pure arithmetic.
* The conversion collaborators (`convert.js`) and the `Script` wrapper are
  not under `src/`; per the specification they are external collaborators.
  They are modelled from the specification text and marked as such in their
  doc comments.
* Reading `buffer[pos]` past the end of a JS array yields `undefined`; the
  embedding uses `List.getD _ _ 0`.  Every theorem below about in-range data
  only exercises in-bounds reads, where the two semantics agree; the one
  theorem about a truncated buffer only hits out-of-range reads whose JS
  result (`NaN`) and model result (`0`) are both rejected by the same falsy
  check in the `Transaction` constructor, which is noted at that theorem.
-/

set_option maxRecDepth 100000

namespace BtcTx

/-- Modelled from the spec: `convert.numToBytes(num, width)`, the
integer-to-fixed-width little-endian-bytes collaborator (spec section 6:
"integer <-> fixed-width little-endian bytes").  Emits `width` bytes, least
significant first, truncating the integer to `width` bytes. -/
def numToBytes (n : Nat) : Nat → List Nat
  | 0 => []
  | w + 1 => n % 256 :: numToBytes (n / 256) w

/-- Modelled from the spec: `convert.bytesToNum`, the little-endian
bytes-to-integer collaborator (spec section 6). -/
def bytesToNum : List Nat → Nat
  | [] => 0
  | b :: bs => b + 256 * bytesToNum bs

/-- Modelled from the spec: `convert.numToVarInt(num)`, the CompactSize
encoder (spec section 4.1): values below 0xFD are one byte; the marker 0xFD
is followed by a 2-byte little-endian value, 0xFE by a 4-byte value, and
0xFF by an 8-byte value. -/
def numToVarInt (n : Nat) : List Nat :=
  if n < 253 then [n]
  else if n < 2 ^ 16 then 253 :: numToBytes n 2
  else if n < 2 ^ 32 then 254 :: numToBytes n 4
  else 255 :: numToBytes n 8

/-- Modelled from the spec: one output character code of `convert.bytesToHex`
for a hex digit value 0..15 (lowercase, so codes 48..57 then 97..102). -/
def natToHexCode (d : Nat) : Nat :=
  if d < 10 then 48 + d else 87 + d

/-- Modelled from the spec: the value of one hex digit character code, as
`convert.hexToBytes` reads it (digits, lowercase letters, uppercase
letters; anything else is treated as 0). -/
def hexCodeToNat (c : Nat) : Nat :=
  if 48 ≤ c ∧ c ≤ 57 then c - 48
  else if 97 ≤ c ∧ c ≤ 102 then c - 87
  else if 65 ≤ c ∧ c ≤ 70 then c - 55
  else 0

/-- Modelled from the spec: `convert.bytesToHex`, two lowercase hex digit
codes per byte (spec section 6: "hex <-> bytes"). -/
def bytesToHex : List Nat → List Nat
  | [] => []
  | b :: bs => natToHexCode (b / 16) :: natToHexCode (b % 16) :: bytesToHex bs

/-- Modelled from the spec: `convert.hexToBytes`, consuming the character
codes two at a time (spec section 6). -/
def hexToBytes : List Nat → List Nat
  | c1 :: c2 :: rest => (16 * hexCodeToNat c1 + hexCodeToNat c2) :: hexToBytes rest
  | _ => []

/-! ## The transaction data model

`TransactionIn.sequence` is dynamically typed in the source: it is normally a
4-byte array, but `hashTransactionForSignature` assigns the *number* `0` to
other inputs under SIGHASH_NONE, and the `TransactionIn` constructor leaves
it `undefined` when no sequence is supplied (see `TransactionIn.make`).  The
sum type `SeqVal` records which of the three JS shapes the field holds. -/

inductive SeqVal where
  | arr : List Nat → SeqVal
  | num : Nat → SeqVal
  | undefined : SeqVal
deriving DecidableEq

/-- JS truthiness of a `sequence` value: arrays are always truthy, numbers
are truthy unless 0, `undefined` is falsy. -/
def SeqVal.truthy : SeqVal → Bool
  | .arr _ => true
  | .num n => n ≠ 0
  | .undefined => false

/-- `buffer.concat(txin.sequence)` in `Transaction.prototype.serialize`:
concatenating an array appends its elements, while concatenating a plain
value appends that single value (so a numeric sequence 0 contributes ONE
byte, and `undefined` contributes one junk element, modelled as 0). -/
def SeqVal.serialized : SeqVal → List Nat
  | .arr l => l
  | .num n => [n]
  | .undefined => [0]

/-- One transaction input: `outpoint.hash` (hex character codes, display
order), `outpoint.index`, the script buffer bytes, and the sequence value. -/
structure TxIn where
  hash : List Nat
  index : Nat
  script : List Nat
  sequence : SeqVal
deriving DecidableEq

/-- One transaction output: the value and the script buffer bytes.  The
source also derives a display `address` from the script through the external
`Script` collaborator; it never feeds back into the codec or the
signature-hash engine and is not modelled. -/
structure TxOut where
  value : Nat
  script : List Nat
deriving DecidableEq

/-- The transaction document: version, locktime, inputs, outputs.  The cached
identifier `hash` field is derived display data (double SHA-256 of
`serialize()`, reversed) and never feeds back into the codec or the
signature-hash engine, so it is not part of the record. -/
structure Tx where
  version : Nat
  locktime : Nat
  ins : List TxIn
  outs : List TxOut
deriving DecidableEq

def defaultTxIn : TxIn := { hash := [], index := 0, script := [], sequence := .undefined }

/-! ## Serialization (`Transaction.prototype.serialize`) -/

/-- The bytes one input contributes to `serialize()`: the outpoint hash
converted from hex and reversed, the 4-byte index, the script length as a
varint, the script bytes, then the sequence (see `SeqVal.serialized`). -/
def serializeIn (i : TxIn) : List Nat :=
  (hexToBytes i.hash).reverse ++ numToBytes i.index 4 ++
    numToVarInt i.script.length ++ i.script ++ i.sequence.serialized

/-- The bytes one output contributes to `serialize()`: the 8-byte value, the
script length as a varint, then the script bytes. -/
def serializeOut (o : TxOut) : List Nat :=
  numToBytes o.value 8 ++ numToVarInt o.script.length ++ o.script

/-- The concatenation of the per-input blocks, in order (the `forEach` loop
in `serialize()`). -/
def insJoin : List TxIn → List Nat
  | [] => []
  | i :: rest => serializeIn i ++ insJoin rest

/-- The concatenation of the per-output blocks, in order. -/
def outsJoin : List TxOut → List Nat
  | [] => []
  | o :: rest => serializeOut o ++ outsJoin rest

/-- `Transaction.prototype.serialize`: version (4 bytes LE), varint input
count, the input blocks, varint output count, the output blocks, locktime
(4 bytes LE). -/
def Tx.serialize (t : Tx) : List Nat :=
  numToBytes t.version 4 ++ numToVarInt t.ins.length ++ insJoin t.ins ++
    numToVarInt t.outs.length ++ outsJoin t.outs ++ numToBytes t.locktime 4

/-! ## Deserialization (`Transaction.deserialize`)

The source walks a cursor `pos` over the byte array through the closures
`readAsInt`, `readVarInt`, `readBytes`, `readVarString`.  Each is modelled
as a function from the buffer and the cursor to the value and the new
cursor. -/

/-- `buffer[pos]` (out of range reads modelled as 0, see the header note). -/
def bufGet (buffer : List Nat) (pos : Nat) : Nat := buffer.getD pos 0

/-- The `readAsInt(bytes)` closure: reads `w` bytes little-endian,
recursing exactly as the source does (`buffer[pos-1] + readAsInt(bytes-1) *
256` after `pos++`). -/
def readAsInt (buffer : List Nat) (pos : Nat) : Nat → Nat × Nat
  | 0 => (0, pos)
  | w + 1 =>
    let b := bufGet buffer pos
    let r := readAsInt buffer (pos + 1) w
    (b + r.1 * 256, r.2)

/-- The `readVarInt()` closure: one byte below 253 is the value itself;
otherwise the marker byte `b` is followed by a `b - 251`-byte little-endian
value.  (Note the source slip: marker 254 therefore reads 3 bytes and marker
255 reads 4, not the CompactSize widths 4 and 8.) -/
def readVarInt (buffer : List Nat) (pos : Nat) : Nat × Nat :=
  let b := bufGet buffer pos
  if b < 253 then (b, pos + 1)
  else readAsInt buffer (pos + 1) (b - 251)

/-- The `readBytes(bytes)` closure: `buffer.slice(pos, pos + n)` (clamped at
the end of the buffer, as JS `slice` is), advancing the cursor by `n`. -/
def readBytes (buffer : List Nat) (pos n : Nat) : List Nat × Nat :=
  ((buffer.drop pos).take n, pos + n)

/-- The `readVarString()` closure: a varint length then that many bytes. -/
def readVarString (buffer : List Nat) (pos : Nat) : List Nat × Nat :=
  let s := readVarInt buffer pos
  readBytes buffer s.2 s.1

/-- The input-reading loop of `deserialize`: 32 hash bytes (reversed and
converted to hex for display), 4 index bytes, a varint-length script, and 4
sequence bytes, repeated `count` times. -/
def readIns (buffer : List Nat) : Nat → Nat → List TxIn × Nat
  | 0, pos => ([], pos)
  | count + 1, pos =>
    let h := readBytes buffer pos 32
    let ix := readAsInt buffer h.2 4
    let sc := readVarString buffer ix.2
    let sq := readBytes buffer sc.2 4
    let rest := readIns buffer count sq.2
    ({ hash := bytesToHex h.1.reverse, index := ix.1,
       script := sc.1, sequence := .arr sq.1 } :: rest.1, rest.2)

/-- The output-reading loop of `deserialize`: 8 value bytes and a
varint-length script, repeated `count` times. -/
def readOuts (buffer : List Nat) : Nat → Nat → List TxOut × Nat
  | 0, pos => ([], pos)
  | count + 1, pos =>
    let v := readBytes buffer pos 8
    let sc := readVarString buffer v.2
    let rest := readOuts buffer count sc.2
    ({ value := bytesToNum v.1, script := sc.1 } :: rest.1, rest.2)

/-- The `Transaction(doc)` constructor applied to the document `deserialize`
builds: defaults are version 1 and locktime 0, and a falsy (zero) version or
locktime in the document leaves the default in place (`if (doc.version)`,
`if (doc.locktime)`).  Inputs pass through `new TransactionIn(input)` with
`outpoint`, `script` and a truthy array `sequence` already set, and outputs
through `new TransactionOut(output)` with the script cloned and the numeric
value kept, so both are field-for-field identities on this document shape. -/
def Tx.ofDoc (version locktime : Nat) (ins : List TxIn) (outs : List TxOut) : Tx :=
  { version := if version ≠ 0 then version else 1,
    locktime := if locktime ≠ 0 then locktime else 0,
    ins := ins, outs := outs }

/-- `Transaction.deserialize`: version, varint input count, the inputs,
varint output count, the outputs, locktime, then the `Transaction`
constructor on the resulting document. -/
def Transaction.deserialize (buffer : List Nat) : Tx :=
  let v := readAsInt buffer 0 4
  let nIns := readVarInt buffer v.2
  let ins := readIns buffer nIns.1 nIns.2
  let nOuts := readVarInt buffer ins.2
  let outs := readOuts buffer nOuts.1 nOuts.2
  let lock := readAsInt buffer outs.2 4
  Tx.ofDoc v.1 lock.1 ins.1 outs.1

/-! ## Input construction (`TransactionIn`, `Transaction.prototype.addInput`) -/

/-- The `TransactionIn(data)` constructor for a document carrying an
`outpoint`, an optional `script` and an optional `sequence`.  The final line
of the source is `this.sequence = data.sequence || this.defaultSequence`;
`defaultSequence` is a field of `Transaction` instances, never of
`TransactionIn` instances or their prototype, so `this.defaultSequence`
evaluates to `undefined` here and a falsy `data.sequence` leaves the field
`undefined`. -/
def TransactionIn.make (hash : List Nat) (index : Nat) (script : List Nat)
    (sequence : SeqVal) : TxIn :=
  { hash := hash, index := index, script := script,
    sequence := if sequence.truthy then sequence else .undefined }

/-- `Transaction.prototype.addInput(hash, outIndex)` in its
hash-plus-index form: pushes a `TransactionIn` built from the outpoint, an
empty script, and `this.defaultSequence`, which the `Transaction`
constructor sets to the 4-byte array `[255, 255, 255, 255]`. -/
def Tx.addInput (t : Tx) (hash : List Nat) (outIndex : Nat) : Tx :=
  { t with
    ins := t.ins ++ [TransactionIn.make hash outIndex [] (.arr [255, 255, 255, 255])] }

/-! ## The signature-hash engine (`Transaction.prototype.hashTransactionForSignature`)

The source deep-clones the transaction and then mutates only the clone; the
value-level model below applies the same field updates to the transaction
value directly, which is the observable effect on the clone (the separate
heap model later in this file settles the aliasing questions). -/

/-- `list.set`-style update of the element at `k` (the source writes
`txTmp.ins[inIndex].script = ...`; all uses in the claims have `k` in
range, where JS indexing and this update agree). -/
def modifyAt {α : Type} (k : Nat) (f : α → α) : List α → List α
  | [] => []
  | x :: rest =>
    match k with
    | 0 => f x :: rest
    | k + 1 => x :: modifyAt k f rest

/-- The SIGHASH_NONE loop `txTmp.ins.forEach(...)`: every input whose index
differs from `inIndex` gets its sequence field assigned the NUMBER 0 (not a
4-byte array); the input at `inIndex` is left alone.  `k` is the index of
the first list element. -/
def setOtherSequences (inIndex : Nat) : Nat → List TxIn → List TxIn
  | _, [] => []
  | k, i :: rest =>
    (if k ≠ inIndex then { i with sequence := .num 0 } else i) ::
      setOtherSequences inIndex (k + 1) rest

/-- The source constants: note that `SIGHASH_ANYONECANPAY` is the DECIMAL
literal 80 (0x50), not the protocol value 0x80. -/
def SIGHASH_ALL : Nat := 1
def SIGHASH_NONE : Nat := 2
def SIGHASH_SINGLE : Nat := 3
def SIGHASH_ANYONECANPAY : Nat := 80

/-- The modified clone `txTmp` that `hashTransactionForSignature` serializes:
every input script blanked, the input at `inIndex` given `connectedScript`,
then the `hashType & 0x1f` dispatch (NONE drops the outputs and zeroes the
other sequences; the SINGLE branch of the source is an empty TODO), then the
`hashType & SIGHASH_ANYONECANPAY` check with the decimal-80 constant. -/
def sigHashTmpTx (t : Tx) (connectedScript : List Nat) (inIndex hashType : Nat) : Tx :=
  let txTmp := { t with ins := t.ins.map fun (i : TxIn) => { i with script := ([] : List Nat) } }
  let txTmp := { txTmp with
    ins := modifyAt inIndex (fun (i : TxIn) => { i with script := connectedScript }) txTmp.ins }
  let txTmp :=
    if hashType &&& 31 = SIGHASH_NONE then
      { txTmp with outs := [], ins := setOtherSequences inIndex 0 txTmp.ins }
    else txTmp
  if hashType &&& SIGHASH_ANYONECANPAY ≠ 0 then
    { txTmp with ins := [txTmp.ins.getD inIndex defaultTxIn] }
  else txTmp

/-- The exact byte string the double SHA-256 is applied to: the serialized
modified clone followed by the hash type as 4 little-endian bytes. -/
def sigHashPreimage (t : Tx) (connectedScript : List Nat) (inIndex hashType : Nat) :
    List Nat :=
  (sigHashTmpTx t connectedScript inIndex hashType).serialize ++ numToBytes hashType 4

/-! ## SHA-256

Modelled from the spec: the hash collaborator is single-buffer SHA-256
(crypto-js), composed twice by the signature-hash engine.  This is the
FIPS 180-4 algorithm over byte lists, with 32-bit words as `Nat` reduced
`% 2 ^ 32` at every arithmetic step. -/

def w32 : Nat := 2 ^ 32

/-- Rotate a 32-bit word right by `n`. -/
def rotr (n x : Nat) : Nat := ((x >>> n) ||| (x <<< (32 - n))) % w32

def bsig0 (x : Nat) : Nat := rotr 2 x ^^^ rotr 13 x ^^^ rotr 22 x
def bsig1 (x : Nat) : Nat := rotr 6 x ^^^ rotr 11 x ^^^ rotr 25 x
def ssig0 (x : Nat) : Nat := rotr 7 x ^^^ rotr 18 x ^^^ (x >>> 3)
def ssig1 (x : Nat) : Nat := rotr 17 x ^^^ rotr 19 x ^^^ (x >>> 10)
def chf (x y z : Nat) : Nat := (x &&& y) ^^^ ((x ^^^ (w32 - 1)) &&& z)
def majf (x y z : Nat) : Nat := (x &&& y) ^^^ (x &&& z) ^^^ (y &&& z)

/-- The 64 SHA-256 round constants (FIPS 180-4, written in decimal). -/
def shaK : List Nat :=
  [1116352408, 1899447441, 3049323471, 3921009573, 961987163,
   1508970993, 2453635748, 2870763221, 3624381080, 310598401,
   607225278, 1426881987, 1925078388, 2162078206, 2614888103,
   3248222580, 3835390401, 4022224774, 264347078, 604807628,
   770255983, 1249150122, 1555081692, 1996064986, 2554220882,
   2821834349, 2952996808, 3210313671, 3336571891, 3584528711,
   113926993, 338241895, 666307205, 773529912, 1294757372,
   1396182291, 1695183700, 1986661051, 2177026350, 2456956037,
   2730485921, 2820302411, 3259730800, 3345764771, 3516065817,
   3600352804, 4094571909, 275423344, 430227734, 506948616,
   659060556, 883997877, 958139571, 1322822218, 1537002063,
   1747873779, 1955562222, 2024104815, 2227730452, 2361852424,
   2428436474, 2756734187, 3204031479, 3329325298]

/-- The initial SHA-256 state (FIPS 180-4, written in decimal). -/
def shaH0 : List Nat :=
  [1779033703, 3144134277, 1013904242, 2773480762,
   1359893119, 2600822924, 528734635, 1541459225]

/-- Big-endian bytes of a number, most significant first. -/
def numToBytesBE (n : Nat) : Nat → List Nat
  | 0 => []
  | w + 1 => numToBytesBE (n / 256) w ++ [n % 256]

/-- Pack bytes into big-endian 32-bit words, four at a time. -/
def bytesToWords : List Nat → List Nat
  | a :: b :: c :: d :: rest => (((a * 256 + b) * 256 + c) * 256 + d) :: bytesToWords rest
  | _ => []

/-- Unpack 32-bit words into big-endian bytes. -/
def wordsToBytes : List Nat → List Nat
  | [] => []
  | x :: rest => numToBytesBE x 4 ++ wordsToBytes rest

/-- SHA-256 padding: a 0x80 byte, zeros to 56 mod 64, then the bit length as
8 big-endian bytes. -/
def shaPad (msg : List Nat) : List Nat :=
  let zeros := (119 - msg.length % 64) % 64
  msg ++ [0x80] ++ List.replicate zeros 0 ++ numToBytesBE (msg.length * 8) 8

/-- Extend the 16-word message schedule by `n` further words. -/
def shaExtend (ws : List Nat) : Nat → List Nat
  | 0 => ws
  | n + 1 =>
    let t := (ssig1 (ws.getD (ws.length - 2) 0) + ws.getD (ws.length - 7) 0 +
              ssig0 (ws.getD (ws.length - 15) 0) + ws.getD (ws.length - 16) 0) % w32
    shaExtend (ws ++ [t]) n

/-- The 64 compression rounds: one round per constant/schedule-word pair. -/
def shaRounds : List Nat → List Nat → List Nat → List Nat
  | k :: ks, x :: xs, [a, b, c, d, e, f, g, h] =>
    let t1 := (h + bsig1 e + chf e f g + k + x) % w32
    let t2 := (bsig0 a + majf a b c) % w32
    shaRounds ks xs [(t1 + t2) % w32, a, b, c, (d + t1) % w32, e, f, g]
  | _, _, hs => hs

/-- Process one 64-byte block into the running state. -/
def shaBlock (hs block : List Nat) : List Nat :=
  let ws := shaExtend (bytesToWords block) 48
  List.zipWith (fun a b => (a + b) % w32) hs (shaRounds shaK ws hs)

/-- Split a byte list into 64-byte blocks; the first argument is fuel,
called with the list length (one block consumes 64 elements, so that is
always enough). -/
def toBlocks : Nat → List Nat → List (List Nat)
  | 0, _ => []
  | _, [] => []
  | fuel + 1, bytes => bytes.take 64 :: toBlocks fuel (bytes.drop 64)

/-- Modelled from the spec: the SHA-256 hash collaborator, bytes to bytes. -/
def sha256 (msg : List Nat) : List Nat :=
  let padded := shaPad msg
  wordsToBytes (List.foldl shaBlock shaH0 (toBlocks padded.length padded))

/-- The double SHA-256 the engine applies (spec section 4.2 step 6). -/
def dsha256 (msg : List Nat) : List Nat := sha256 (sha256 msg)

/-- The digest `hashTransactionForSignature` returns: double SHA-256 of the
preimage, not byte-reversed. -/
def sigHashDigest (t : Tx) (connectedScript : List Nat) (inIndex hashType : Nat) :
    List Nat :=
  dsha256 (sigHashPreimage t connectedScript inIndex hashType)

/-! ## Well-formedness of transaction values

`wfTx` captures the data-model ranges of spec section 3: a 64-character
lowercase-hex outpoint hash (32 bytes), 32-bit index/version/locktime, byte
lists holding bytes, a 4-byte array sequence, and a value the JS number type
represents exactly (below 2 ^ 53).  Counts and script lengths are kept below
2 ^ 16 because `readVarInt` reads the wrong payload width for the 0xFE and
0xFF markers (see `readVarInt`), so only the 1-byte and 0xFD forms round
trip. -/

def isHexLowerCode (c : Nat) : Bool :=
  (decide (48 ≤ c) && decide (c ≤ 57)) || (decide (97 ≤ c) && decide (c ≤ 102))

def wfSeq : SeqVal → Bool
  | .arr s => s.length == 4
  | _ => false

def wfIn (i : TxIn) : Bool :=
  (i.hash.length == 64) && i.hash.all isHexLowerCode &&
    decide (i.index < 2 ^ 32) && decide (i.script.length < 2 ^ 16) &&
    wfSeq i.sequence

def wfOut (o : TxOut) : Bool :=
  decide (o.value < 2 ^ 53) && decide (o.script.length < 2 ^ 16)

def wfTx (t : Tx) : Bool :=
  decide (t.version < 2 ^ 32) && decide (t.locktime < 2 ^ 32) &&
    decide (t.ins.length < 2 ^ 16) && decide (t.outs.length < 2 ^ 16) &&
    t.ins.all wfIn && t.outs.all wfOut

/-! ## Cursor and byte-list helper lemmas -/

theorem drop_append_self {α : Type} : ∀ (l1 l2 : List α), (l1 ++ l2).drop l1.length = l2
  | [], _ => rfl
  | _ :: l1, l2 => drop_append_self l1 l2

theorem take_append_self {α : Type} : ∀ (l1 l2 : List α), (l1 ++ l2).take l1.length = l1
  | [], _ => rfl
  | a :: l1, l2 => by simp [take_append_self l1 l2]

theorem drop_drop_add {α : Type} :
    ∀ (pos k : Nat) (l : List α), (l.drop pos).drop k = l.drop (pos + k)
  | 0, _, _ => by simp
  | _ + 1, _, [] => by simp
  | pos + 1, k, _ :: l => by simp [Nat.succ_add, drop_drop_add pos k l]

theorem getD_eq_headD_drop : ∀ (pos : Nat) (l : List Nat), l.getD pos 0 = (l.drop pos).headD 0
  | 0, [] => rfl
  | 0, _ :: _ => rfl
  | _ + 1, [] => rfl
  | pos + 1, _ :: l => by simp [List.getD, getD_eq_headD_drop pos l]

theorem bufGet_of_drop_cons {buffer : List Nat} {pos x : Nat} {xs : List Nat}
    (h : buffer.drop pos = x :: xs) : bufGet buffer pos = x := by
  rw [bufGet, getD_eq_headD_drop, h]; rfl

theorem drop_succ_of_drop_cons {buffer : List Nat} {pos x : Nat} {xs : List Nat}
    (h : buffer.drop pos = x :: xs) : buffer.drop (pos + 1) = xs := by
  rw [← drop_drop_add pos 1, h]; rfl

theorem drop_step {buffer l rest : List Nat} {pos : Nat}
    (h : buffer.drop pos = l ++ rest) : buffer.drop (pos + l.length) = rest := by
  rw [← drop_drop_add, h, drop_append_self]

/-! ## Conversion collaborator round trips -/

theorem numToBytes_length (n : Nat) : ∀ w, (numToBytes n w).length = w := by
  intro w
  induction w generalizing n with
  | zero => rfl
  | succ w ih => simp [numToBytes, ih]

theorem bytesToNum_numToBytes {n : Nat} : ∀ {w : Nat}, n < 256 ^ w →
    bytesToNum (numToBytes n w) = n := by
  intro w
  induction w generalizing n with
  | zero => intro h; interval_cases n; rfl
  | succ w ih =>
    intro h
    have hdiv : n / 256 < 256 ^ w := by
      rw [Nat.div_lt_iff_lt_mul (by norm_num)]
      calc n < 256 ^ (w + 1) := h
        _ = 256 ^ w * 256 := by ring
    simp [numToBytes, bytesToNum, ih hdiv]
    omega

theorem hexCodeToNat_lt {c : Nat} (hc : isHexLowerCode c = true) : hexCodeToNat c < 16 := by
  simp [isHexLowerCode] at hc
  unfold hexCodeToNat
  split_ifs <;> omega

theorem natToHexCode_hexCodeToNat {c : Nat} (hc : isHexLowerCode c = true) :
    natToHexCode (hexCodeToNat c) = c := by
  simp [isHexLowerCode] at hc
  unfold hexCodeToNat natToHexCode
  split_ifs <;> omega

theorem hexToBytes_length : ∀ (s : List Nat), (hexToBytes s).length = s.length / 2
  | [] => rfl
  | [_] => by simp [hexToBytes]
  | _ :: _ :: rest => by
    have := hexToBytes_length rest
    simp [hexToBytes, this]
    omega

theorem bytesToHex_hexToBytes : ∀ (s : List Nat), s.length % 2 = 0 →
    (∀ c ∈ s, isHexLowerCode c = true) → bytesToHex (hexToBytes s) = s
  | [], _, _ => rfl
  | [_], h, _ => by simp at h
  | c1 :: c2 :: rest, h, hall => by
    have h1 : isHexLowerCode c1 = true := hall c1 (by simp)
    have h2 : isHexLowerCode c2 = true := hall c2 (by simp)
    have hb2 := hexCodeToNat_lt h2
    have hdiv : (16 * hexCodeToNat c1 + hexCodeToNat c2) / 16 = hexCodeToNat c1 := by omega
    have hmod : (16 * hexCodeToNat c1 + hexCodeToNat c2) % 16 = hexCodeToNat c2 := by omega
    have hrest : bytesToHex (hexToBytes rest) = rest :=
      bytesToHex_hexToBytes rest (by simp at h ⊢; omega)
        (fun c hc => hall c (by simp only [List.mem_cons]; tauto))
    simp [hexToBytes, bytesToHex, hdiv, hmod,
      natToHexCode_hexCodeToNat h1, natToHexCode_hexCodeToNat h2, hrest]

/-! ## Reader lemmas: each closure of `deserialize` applied to the bytes the
corresponding part of `serialize` produced -/

theorem readAsInt_spec {buffer : List Nat} :
    ∀ (w pos n : Nat) (rest : List Nat), buffer.drop pos = numToBytes n w ++ rest →
      n < 256 ^ w → readAsInt buffer pos w = (n, pos + w) := by
  intro w
  induction w with
  | zero =>
    intro pos n rest h hn
    interval_cases n
    rfl
  | succ w ih =>
    intro pos n rest h hn
    have hcons : buffer.drop pos = n % 256 :: (numToBytes (n / 256) w ++ rest) := by
      simpa [numToBytes] using h
    have hdiv : n / 256 < 256 ^ w := by
      rw [Nat.div_lt_iff_lt_mul (by norm_num)]
      calc n < 256 ^ (w + 1) := hn
        _ = 256 ^ w * 256 := by ring
    have hrec := ih (pos + 1) (n / 256) rest (drop_succ_of_drop_cons hcons) hdiv
    simp [readAsInt, bufGet_of_drop_cons hcons, hrec]
    omega

theorem readVarInt_spec {buffer : List Nat} {pos n : Nat} {rest : List Nat}
    (h : buffer.drop pos = numToVarInt n ++ rest) (hn : n < 2 ^ 16) :
    readVarInt buffer pos = (n, pos + (numToVarInt n).length) := by
  by_cases h1 : n < 253
  · have hcons : buffer.drop pos = n :: rest := by simpa [numToVarInt, h1] using h
    simp [readVarInt, bufGet_of_drop_cons hcons, h1, numToVarInt]
  · have hvi : numToVarInt n = 253 :: numToBytes n 2 := by
      unfold numToVarInt
      rw [if_neg h1, if_pos hn]
    have hcons : buffer.drop pos = 253 :: (numToBytes n 2 ++ rest) := by
      rw [hvi] at h
      simpa using h
    have h253 : ¬ bufGet buffer pos < 253 := by rw [bufGet_of_drop_cons hcons]; omega
    have hrec : readAsInt buffer (pos + 1) 2 = (n, pos + 1 + 2) :=
      readAsInt_spec 2 (pos + 1) n rest (drop_succ_of_drop_cons hcons)
        (by norm_num at hn ⊢; exact hn)
    simp [readVarInt, bufGet_of_drop_cons hcons, h253, hrec, hvi, numToBytes_length]

theorem readBytes_spec {buffer l rest : List Nat} {pos : Nat}
    (h : buffer.drop pos = l ++ rest) : readBytes buffer pos l.length = (l, pos + l.length) := by
  simp [readBytes, h, take_append_self]

theorem readVarString_spec {buffer l rest : List Nat} {pos : Nat}
    (h : buffer.drop pos = numToVarInt l.length ++ (l ++ rest)) (hl : l.length < 2 ^ 16) :
    readVarString buffer pos = (l, pos + (numToVarInt l.length).length + l.length) := by
  have h1 := readVarInt_spec h hl
  have h2 : buffer.drop (pos + (numToVarInt l.length).length) = l ++ rest := drop_step h
  simp [readVarString, h1, readBytes_spec h2]

theorem readIns_spec {buffer : List Nat} :
    ∀ (ins : List TxIn) (pos : Nat) (rest : List Nat),
      (∀ i ∈ ins, wfIn i = true) →
      buffer.drop pos = insJoin ins ++ rest →
      readIns buffer ins.length pos = (ins, pos + (insJoin ins).length) := by
  intro ins
  induction ins with
  | nil => intro pos rest _ _; simp [readIns, insJoin]
  | cons i ins ih =>
    intro pos rest hwf h
    have hwfi := hwf i (by simp)
    simp only [wfIn, Bool.and_eq_true, decide_eq_true_eq, beq_iff_eq,
      List.all_eq_true] at hwfi
    obtain ⟨⟨⟨⟨hlen, hhex⟩, hidx⟩, hslen⟩, hseq⟩ := hwfi
    obtain ⟨s, hsv, hs4⟩ : ∃ s, i.sequence = .arr s ∧ s.length = 4 := by
      cases hsv : i.sequence with
      | arr s => rw [hsv] at hseq; simp [wfSeq] at hseq; exact ⟨s, rfl, hseq⟩
      | num n => rw [hsv] at hseq; simp [wfSeq] at hseq
      | undefined => rw [hsv] at hseq; simp [wfSeq] at hseq
    have hblen : ((hexToBytes i.hash).reverse).length = 32 := by
      simp [hexToBytes_length, hlen]
    have h0 : buffer.drop pos = (hexToBytes i.hash).reverse ++
        (numToBytes i.index 4 ++ (numToVarInt i.script.length ++ (i.script ++
          (s ++ (insJoin ins ++ rest))))) := by
      rw [h]
      simp [insJoin, serializeIn, hsv, SeqVal.serialized, List.append_assoc]
    have h1 : readBytes buffer pos 32 = ((hexToBytes i.hash).reverse, pos + 32) := by
      have hr := readBytes_spec h0
      rwa [hblen] at hr
    have h2 : buffer.drop (pos + 32) = numToBytes i.index 4 ++
        (numToVarInt i.script.length ++ (i.script ++ (s ++ (insJoin ins ++ rest)))) := by
      have hr := drop_step h0
      rwa [hblen] at hr
    have h3 : readAsInt buffer (pos + 32) 4 = (i.index, pos + 32 + 4) :=
      readAsInt_spec 4 _ _ _ h2 (by norm_num at hidx ⊢; exact hidx)
    have h4 : buffer.drop (pos + 32 + 4) = numToVarInt i.script.length ++
        (i.script ++ (s ++ (insJoin ins ++ rest))) := by
      have hr := drop_step h2
      rwa [numToBytes_length] at hr
    have h5 := readVarString_spec h4 hslen
    have h6 : buffer.drop (pos + 32 + 4 + (numToVarInt i.script.length).length +
        i.script.length) = s ++ (insJoin ins ++ rest) := drop_step (drop_step h4)
    have h7 : readBytes buffer (pos + 32 + 4 + (numToVarInt i.script.length).length +
        i.script.length) 4 = (s, pos + 32 + 4 + (numToVarInt i.script.length).length +
        i.script.length + 4) := by
      have hr := readBytes_spec h6
      rwa [hs4] at hr
    have h8 : buffer.drop (pos + 32 + 4 + (numToVarInt i.script.length).length +
        i.script.length + 4) = insJoin ins ++ rest := by
      have hr := drop_step h6
      rwa [hs4] at hr
    have h9 := ih (pos + 32 + 4 + (numToVarInt i.script.length).length +
      i.script.length + 4) rest (fun j hj => hwf j (by simp [hj])) h8
    have hhash : bytesToHex ((hexToBytes i.hash).reverse).reverse = i.hash := by
      rw [List.reverse_reverse]
      exact bytesToHex_hexToBytes i.hash (by omega) hhex
    have hrec : TxIn.mk (bytesToHex ((hexToBytes i.hash).reverse).reverse)
        i.index i.script (.arr s) = i := by
      rw [hhash, ← hsv]
    have hlens : (serializeIn i).length =
        32 + 4 + (numToVarInt i.script.length).length + i.script.length + 4 := by
      simp [serializeIn, hblen, numToBytes_length, hsv, SeqVal.serialized, hs4]
      omega
    show readIns buffer (ins.length + 1) pos = _
    simp only [readIns, h1, h3, h5, h7, h9, hrec]
    rw [Prod.mk.injEq]
    refine ⟨rfl, ?_⟩
    simp [insJoin, hlens]
    omega

theorem readOuts_spec {buffer : List Nat} :
    ∀ (outs : List TxOut) (pos : Nat) (rest : List Nat),
      (∀ o ∈ outs, wfOut o = true) →
      buffer.drop pos = outsJoin outs ++ rest →
      readOuts buffer outs.length pos = (outs, pos + (outsJoin outs).length) := by
  intro outs
  induction outs with
  | nil => intro pos rest _ _; simp [readOuts, outsJoin]
  | cons o outs ih =>
    intro pos rest hwf h
    have hwfo := hwf o (by simp)
    simp only [wfOut, Bool.and_eq_true, decide_eq_true_eq] at hwfo
    obtain ⟨hval, hslen⟩ := hwfo
    have h0 : buffer.drop pos = numToBytes o.value 8 ++
        (numToVarInt o.script.length ++ (o.script ++ (outsJoin outs ++ rest))) := by
      rw [h]
      simp [outsJoin, serializeOut, List.append_assoc]
    have h1 : readBytes buffer pos 8 = (numToBytes o.value 8, pos + 8) := by
      have hr := readBytes_spec h0
      rwa [numToBytes_length] at hr
    have h2 : buffer.drop (pos + 8) = numToVarInt o.script.length ++
        (o.script ++ (outsJoin outs ++ rest)) := by
      have hr := drop_step h0
      rwa [numToBytes_length] at hr
    have h3 := readVarString_spec h2 hslen
    have h4 : buffer.drop (pos + 8 + (numToVarInt o.script.length).length +
        o.script.length) = outsJoin outs ++ rest := drop_step (drop_step h2)
    have h5 := ih (pos + 8 + (numToVarInt o.script.length).length + o.script.length)
      rest (fun j hj => hwf j (by simp [hj])) h4
    have hv : bytesToNum (numToBytes o.value 8) = o.value :=
      bytesToNum_numToBytes (by norm_num at hval ⊢; omega)
    have hrec : TxOut.mk (bytesToNum (numToBytes o.value 8)) o.script = o := by
      rw [hv]
    have hlens : (serializeOut o).length =
        8 + (numToVarInt o.script.length).length + o.script.length := by
      simp [serializeOut, numToBytes_length]
      omega
    show readOuts buffer (outs.length + 1) pos = _
    simp only [readOuts, h1, h3, h5, hrec]
    rw [Prod.mk.injEq]
    refine ⟨rfl, ?_⟩
    simp [outsJoin, hlens]
    omega

/-- The round-trip core: deserializing the serialization of a well-formed
transaction whose version is nonzero returns the same transaction value. -/
theorem deserialize_serialize {t : Tx} (hwf : wfTx t = true) (hv : t.version ≠ 0) :
    Transaction.deserialize t.serialize = t := by
  simp only [wfTx, Bool.and_eq_true, decide_eq_true_eq, List.all_eq_true] at hwf
  obtain ⟨⟨⟨⟨⟨hver, hlock⟩, hinslen⟩, houtslen⟩, hins⟩, houts⟩ := hwf
  set buffer := t.serialize with hbuf
  have h0 : buffer.drop 0 = numToBytes t.version 4 ++ (numToVarInt t.ins.length ++
      (insJoin t.ins ++ (numToVarInt t.outs.length ++ (outsJoin t.outs ++
        (numToBytes t.locktime 4 ++ []))))) := by
    simp [hbuf, Tx.serialize, List.append_assoc]
  have h1 : readAsInt buffer 0 4 = (t.version, 4) := by
    have hr := readAsInt_spec 4 0 t.version _ h0 (by norm_num at hver ⊢; exact hver)
    simpa using hr
  have h2 : buffer.drop 4 = numToVarInt t.ins.length ++ (insJoin t.ins ++
      (numToVarInt t.outs.length ++ (outsJoin t.outs ++
        (numToBytes t.locktime 4 ++ [])))) := by
    have hr := drop_step h0
    rwa [numToBytes_length, Nat.zero_add] at hr
  have h3 : readVarInt buffer 4 = (t.ins.length, 4 + (numToVarInt t.ins.length).length) :=
    readVarInt_spec h2 hinslen
  have h4 : buffer.drop (4 + (numToVarInt t.ins.length).length) = insJoin t.ins ++
      (numToVarInt t.outs.length ++ (outsJoin t.outs ++
        (numToBytes t.locktime 4 ++ []))) := drop_step h2
  have h5 := readIns_spec t.ins _ _ hins h4
  have h6 : buffer.drop (4 + (numToVarInt t.ins.length).length + (insJoin t.ins).length) =
      numToVarInt t.outs.length ++ (outsJoin t.outs ++ (numToBytes t.locktime 4 ++ [])) :=
    drop_step h4
  have h7 : readVarInt buffer (4 + (numToVarInt t.ins.length).length +
      (insJoin t.ins).length) = (t.outs.length, 4 + (numToVarInt t.ins.length).length +
      (insJoin t.ins).length + (numToVarInt t.outs.length).length) :=
    readVarInt_spec h6 houtslen
  have h8 : buffer.drop (4 + (numToVarInt t.ins.length).length + (insJoin t.ins).length +
      (numToVarInt t.outs.length).length) = outsJoin t.outs ++
      (numToBytes t.locktime 4 ++ []) := drop_step h6
  have h9 := readOuts_spec t.outs _ _ houts h8
  have h10 : buffer.drop (4 + (numToVarInt t.ins.length).length + (insJoin t.ins).length +
      (numToVarInt t.outs.length).length + (outsJoin t.outs).length) =
      numToBytes t.locktime 4 ++ [] := drop_step h8
  have h11 := readAsInt_spec 4 _ t.locktime [] h10 (by norm_num at hlock ⊢; exact hlock)
  show Transaction.deserialize buffer = t
  simp only [Transaction.deserialize, h1, h3, h5, h7, h9, h11, Tx.ofDoc]
  cases t with
  | mk version locktime ins outs =>
    simp only at hv ⊢
    rw [if_pos hv]
    by_cases hl : locktime ≠ 0
    · rw [if_pos hl]
    · rw [if_neg hl]
      simp at hl
      rw [hl]

/-! ## Heap model of the mutable object graph

The pure model above takes the value-level view.  The claims about `clone`
isolation and about `hashTransactionForSignature` leaving the original
transaction untouched are aliasing claims, so this section models the
mutable arrays explicitly: a `Store` holds the script buffers and the
4-byte sequence arrays, and the transaction records hold indices into it
(`TxInH.script`, `SeqRef.ref`).  The `TransactionIn` / `TransactionOut` /
`Transaction` objects themselves are never shared between a transaction and
its clone (every clone path constructs fresh objects), so JS field
assignment on them is faithfully a record update; only the arrays can be
shared, which is exactly what the store captures. -/

abbrev Store := List (List Nat)

/-- A sequence field in the heap model: a reference to a store array, a
plain number, or `undefined` (mirroring `SeqVal`). -/
inductive SeqRef where
  | ref : Nat → SeqRef
  | num : Nat → SeqRef
  | undefined : SeqRef
deriving DecidableEq

structure TxInH where
  hash : List Nat
  index : Nat
  script : Nat
  sequence : SeqRef
deriving DecidableEq

structure TxOutH where
  value : Nat
  script : Nat
deriving DecidableEq

structure TxH where
  version : Nat
  locktime : Nat
  ins : List TxInH
  outs : List TxOutH
deriving DecidableEq

def defaultTxInH : TxInH := { hash := [], index := 0, script := 0, sequence := .undefined }

/-- Read a script buffer out of the store. -/
def readScript (st : Store) (r : Nat) : List Nat := st.getD r []

/-- Read a sequence field down to its value-level shape. -/
def readSeq (st : Store) : SeqRef → SeqVal
  | .ref r => .arr (st.getD r [])
  | .num n => .num n
  | .undefined => .undefined

/-- The value-level view of a heap input. -/
def readInH (st : Store) (i : TxInH) : TxIn :=
  { hash := i.hash, index := i.index, script := readScript st i.script,
    sequence := readSeq st i.sequence }

/-- The value-level view of a heap output. -/
def readOutH (st : Store) (o : TxOutH) : TxOut :=
  { value := o.value, script := readScript st o.script }

/-- The value-level view of a heap transaction. -/
def readTxH (st : Store) (t : TxH) : Tx :=
  { version := t.version, locktime := t.locktime,
    ins := t.ins.map (readInH st), outs := t.outs.map (readOutH st) }

/-- Overwrite the contents of the array at reference `r` (an in-place
mutation of that array, e.g. assigning its elements). -/
def storeSet (st : Store) (r : Nat) (v : List Nat) : Store := st.set r v

/-- Heap well-formedness: every reference points into the store, and a
numeric sequence is nonzero (a zero one is falsy, which the clone path maps
to `undefined`; no constructor path produces a numeric 0 sequence on a
stored transaction). -/
def wfSeqRef (st : Store) : SeqRef → Bool
  | .ref r => decide (r < st.length)
  | .num n => decide (n ≠ 0)
  | .undefined => true

def wfInH (st : Store) (i : TxInH) : Bool :=
  decide (i.script < st.length) && wfSeqRef st i.sequence

def wfOutH (st : Store) (o : TxOutH) : Bool :=
  decide (o.script < st.length)

def wfTxH (st : Store) (t : TxH) : Bool :=
  t.ins.all (wfInH st) && t.outs.all (wfOutH st)

/-- JS truthiness of a heap sequence field (arrays are truthy). -/
def SeqRef.truthy : SeqRef → Bool
  | .ref _ => true
  | .num n => n ≠ 0
  | .undefined => false

/-! `Transaction.prototype.clone` walks the inputs in order and pushes
`txin.clone()` for each, then the outputs likewise.  `TransactionIn.clone`
builds a fresh outpoint object, calls `this.script.clone()` (a fresh buffer:
one store allocation), and passes `this.sequence` through the constructor
unchanged, so the clone and the original share the sequence array reference;
a falsy sequence (`undefined`, or a numeric 0) leaves the constructor as
`undefined`.  `TransactionOut.clone` routes `this.script.clone()` through
the `TransactionOut` constructor, which clones it once more; the
intermediate buffer is unreachable afterwards and the model allocates only
the surviving copy. -/

def cloneInsH : List TxInH → Store → List TxInH × Store
  | [], st => ([], st)
  | i :: rest, st =>
    let st1 := st ++ [readScript st i.script]
    let r := cloneInsH rest st1
    ({ i with
        script := st.length,
        sequence := if i.sequence.truthy then i.sequence else .undefined } :: r.1, r.2)

def cloneOutsH : List TxOutH → Store → List TxOutH × Store
  | [], st => ([], st)
  | o :: rest, st =>
    let st1 := st ++ [readScript st o.script]
    let r := cloneOutsH rest st1
    ({ o with script := st.length } :: r.1, r.2)

/-- `Transaction.prototype.clone` in the heap model. -/
def cloneH (t : TxH) (st : Store) : TxH × Store :=
  let ri := cloneInsH t.ins st
  let ro := cloneOutsH t.outs ri.2
  ({ version := t.version, locktime := t.locktime, ins := ri.1, outs := ro.1 }, ro.2)

/-- The blanking loop of `hashTransactionForSignature`: each input of the
clone gets `new Script()`, a freshly allocated empty buffer. -/
def blankIns : List TxInH → Store → List TxInH × Store
  | [], st => ([], st)
  | i :: rest, st =>
    let st1 := st ++ [[]]
    let r := blankIns rest st1
    ({ i with script := st.length } :: r.1, r.2)

/-- The SIGHASH_NONE loop in the heap model (field assignment of the
number 0). -/
def setOtherSequencesH (inIndex : Nat) : Nat → List TxInH → List TxInH
  | _, [] => []
  | k, i :: rest =>
    (if k ≠ inIndex then { i with sequence := .num 0 } else i) ::
      setOtherSequencesH inIndex (k + 1) rest

/-- `hashTransactionForSignature` in the heap model: clone, blank every
input script, install the connected script REFERENCE on the input at
`inIndex` (JS assigns the caller's `Script` object), apply the NONE and
ANYONECANPAY branches, serialize the value-level view, hash.  Returns the
digest and the store (grown by the clone and blank allocations, never
written in place). -/
def hashTxForSigH (t : TxH) (csRef inIndex hashType : Nat) (st : Store) :
    List Nat × Store :=
  let c := cloneH t st
  let b := blankIns c.1.ins c.2
  let ins2 := modifyAt inIndex (fun (i : TxInH) => { i with script := csRef }) b.1
  let txTmp : TxH := { c.1 with ins := ins2 }
  let txTmp :=
    if hashType &&& 31 = SIGHASH_NONE then
      { txTmp with outs := [], ins := setOtherSequencesH inIndex 0 txTmp.ins }
    else txTmp
  let txTmp :=
    if hashType &&& SIGHASH_ANYONECANPAY ≠ 0 then
      { txTmp with ins := [txTmp.ins.getD inIndex defaultTxInH] }
    else txTmp
  (dsha256 ((readTxH b.2 txTmp).serialize ++ numToBytes hashType 4), b.2)

/-! ## Store lemmas -/

/-- `st2` is `st` with zero or more arrays appended (every operation in this
module only allocates; nothing shrinks or reorders the store). -/
def Extends (st st2 : Store) : Prop := ∃ ex, st2 = st ++ ex

theorem extends_self (st : Store) : Extends st st := ⟨[], (List.append_nil st).symm⟩

theorem extends_append (st ex : Store) : Extends st (st ++ ex) := ⟨ex, rfl⟩

theorem extends_trans {st1 st2 st3 : Store} (h1 : Extends st1 st2) (h2 : Extends st2 st3) :
    Extends st1 st3 := by
  obtain ⟨ex1, rfl⟩ := h1
  obtain ⟨ex2, rfl⟩ := h2
  exact ⟨ex1 ++ ex2, by simp⟩

theorem extends_length_le {st st2 : Store} (h : Extends st st2) : st.length ≤ st2.length := by
  obtain ⟨ex, rfl⟩ := h
  simp

theorem getD_append_lt {α : Type} :
    ∀ (l1 l2 : List α) (n : Nat) (d : α), n < l1.length → (l1 ++ l2).getD n d = l1.getD n d
  | [], _, _, _, h => by simp at h
  | _ :: _, _, 0, _, _ => rfl
  | _ :: l1, l2, n + 1, d, h => by
    simpa [List.getD] using getD_append_lt l1 l2 n d (by simpa using h)

theorem getD_append_cons {α : Type} :
    ∀ (l1 : List α) (v : α) (l2 : List α) (d : α), (l1 ++ v :: l2).getD l1.length d = v
  | [], _, _, _ => rfl
  | _ :: l1, v, l2, d => by simpa [List.getD] using getD_append_cons l1 v l2 d

theorem getD_set_ne {α : Type} :
    ∀ (l : List α) (r q : Nat) (v d : α), q ≠ r → (l.set r v).getD q d = l.getD q d
  | [], _, _, _, _, _ => rfl
  | _ :: _, 0, 0, _, _, h => absurd rfl h
  | _ :: _, 0, _ + 1, _, _, _ => rfl
  | _ :: _, _ + 1, 0, _, _, _ => rfl
  | _ :: l, r + 1, q + 1, v, d, h => by
    simpa [List.getD] using getD_set_ne l r q v d (by omega)

theorem readScript_extends {st st2 : Store} {r : Nat} (hx : Extends st st2)
    (hr : r < st.length) : readScript st2 r = readScript st r := by
  obtain ⟨ex, rfl⟩ := hx
  exact getD_append_lt st ex r [] hr

theorem readScript_set_ne {st : Store} {r q : Nat} {v : List Nat} (h : q ≠ r) :
    readScript (storeSet st r v) q = readScript st q :=
  getD_set_ne st r q v [] h

theorem readSeq_extends {st st2 : Store} {q : SeqRef} (hx : Extends st st2)
    (hwf : wfSeqRef st q = true) : readSeq st2 q = readSeq st q := by
  cases q with
  | ref r =>
    simp only [wfSeqRef, decide_eq_true_eq] at hwf
    obtain ⟨ex, rfl⟩ := hx
    show SeqVal.arr ((st ++ ex).getD r []) = SeqVal.arr (st.getD r [])
    rw [getD_append_lt st ex r [] hwf]
  | num n => rfl
  | undefined => rfl

theorem readSeq_set_ref_ne {st : Store} {r : Nat} {v : List Nat} {q : SeqRef}
    (h : ∀ p, q = .ref p → p ≠ r) : readSeq (storeSet st r v) q = readSeq st q := by
  cases q with
  | ref p =>
    show SeqVal.arr ((st.set r v).getD p []) = SeqVal.arr (st.getD p [])
    rw [getD_set_ne st r p v [] (h p rfl)]
  | num n => rfl
  | undefined => rfl

theorem readInH_extends {st st2 : Store} {i : TxInH} (hx : Extends st st2)
    (hwf : wfInH st i = true) : readInH st2 i = readInH st i := by
  simp only [wfInH, Bool.and_eq_true, decide_eq_true_eq] at hwf
  simp [readInH, readScript_extends hx hwf.1, readSeq_extends hx hwf.2]

theorem readOutH_extends {st st2 : Store} {o : TxOutH} (hx : Extends st st2)
    (hwf : wfOutH st o = true) : readOutH st2 o = readOutH st o := by
  simp only [wfOutH, decide_eq_true_eq] at hwf
  simp [readOutH, readScript_extends hx hwf]

theorem map_congr_mem {α β : Type} {f g : α → β} :
    ∀ {l : List α}, (∀ x ∈ l, f x = g x) → l.map f = l.map g
  | [], _ => rfl
  | x :: l, h => by
    simp only [List.map_cons, h x (by simp)]
    rw [map_congr_mem fun y hy => h y (by simp [hy])]

theorem readTxH_extends {st st2 : Store} {t : TxH} (hx : Extends st st2)
    (hwf : wfTxH st t = true) : readTxH st2 t = readTxH st t := by
  simp only [wfTxH, Bool.and_eq_true, List.all_eq_true] at hwf
  simp only [readTxH]
  rw [map_congr_mem fun i hi => readInH_extends hx (hwf.1 i hi),
    map_congr_mem fun o ho => readOutH_extends hx (hwf.2 o ho)]

theorem wfSeqRef_extends {st st2 : Store} {q : SeqRef} (hx : Extends st st2)
    (hwf : wfSeqRef st q = true) : wfSeqRef st2 q = true := by
  cases q with
  | ref r =>
    simp only [wfSeqRef, decide_eq_true_eq] at hwf ⊢
    exact lt_of_lt_of_le hwf (extends_length_le hx)
  | num n => exact hwf
  | undefined => rfl

theorem wfInH_extends {st st2 : Store} {i : TxInH} (hx : Extends st st2)
    (hwf : wfInH st i = true) : wfInH st2 i = true := by
  simp only [wfInH, Bool.and_eq_true, decide_eq_true_eq] at hwf ⊢
  exact ⟨lt_of_lt_of_le hwf.1 (extends_length_le hx), wfSeqRef_extends hx hwf.2⟩

theorem wfOutH_extends {st st2 : Store} {o : TxOutH} (hx : Extends st st2)
    (hwf : wfOutH st o = true) : wfOutH st2 o = true := by
  simp only [wfOutH, decide_eq_true_eq] at hwf ⊢
  exact lt_of_lt_of_le hwf (extends_length_le hx)

theorem wfTxH_extends {st st2 : Store} {t : TxH} (hx : Extends st st2)
    (hwf : wfTxH st t = true) : wfTxH st2 t = true := by
  simp only [wfTxH, Bool.and_eq_true, List.all_eq_true] at hwf ⊢
  exact ⟨fun i hi => wfInH_extends hx (hwf.1 i hi),
    fun o ho => wfOutH_extends hx (hwf.2 o ho)⟩

/-! ## Characterizing the clone and blank allocation loops -/

theorem cloneInsH_extends : ∀ (l : List TxInH) (st : Store), Extends st (cloneInsH l st).2
  | [], st => extends_self st
  | i :: rest, st =>
    extends_trans (extends_append st [readScript st i.script])
      (cloneInsH_extends rest (st ++ [readScript st i.script]))

theorem cloneOutsH_extends : ∀ (l : List TxOutH) (st : Store), Extends st (cloneOutsH l st).2
  | [], st => extends_self st
  | o :: rest, st =>
    extends_trans (extends_append st [readScript st o.script])
      (cloneOutsH_extends rest (st ++ [readScript st o.script]))

theorem blankIns_extends : ∀ (l : List TxInH) (st : Store), Extends st (blankIns l st).2
  | [], st => extends_self st
  | _ :: rest, st =>
    extends_trans (extends_append st [[]]) (blankIns_extends rest (st ++ [[]]))

theorem cloneH_extends (t : TxH) (st : Store) : Extends st (cloneH t st).2 :=
  extends_trans (cloneInsH_extends t.ins st)
    (cloneOutsH_extends t.outs (cloneInsH t.ins st).2)

theorem cloneInsH_length : ∀ (l : List TxInH) (st : Store),
    (cloneInsH l st).1.length = l.length
  | [], _ => rfl
  | i :: rest, st => by
    simp [cloneInsH, cloneInsH_length rest (st ++ [readScript st i.script])]

theorem cloneOutsH_length : ∀ (l : List TxOutH) (st : Store),
    (cloneOutsH l st).1.length = l.length
  | [], _ => rfl
  | o :: rest, st => by
    simp [cloneOutsH, cloneOutsH_length rest (st ++ [readScript st o.script])]

theorem blankIns_length : ∀ (l : List TxInH) (st : Store),
    (blankIns l st).1.length = l.length
  | [], _ => rfl
  | _ :: rest, st => by
    simp [blankIns, blankIns_length rest (st ++ [[]])]

theorem cloneInsH_fresh : ∀ (l : List TxInH) (st : Store),
    ∀ x ∈ (cloneInsH l st).1, st.length ≤ x.script := by
  intro l
  induction l with
  | nil => intro st x hx; simp [cloneInsH] at hx
  | cons i rest ih =>
    intro st x hx
    simp only [cloneInsH, List.mem_cons] at hx
    rcases hx with rfl | hx
    · exact Nat.le_refl _
    · have := ih (st ++ [readScript st i.script]) x hx
      simp at this
      omega

theorem readSeq_truthy_filter {st st2 : Store} {q : SeqRef} (hx : Extends st st2)
    (hwf : wfSeqRef st q = true) :
    readSeq st2 (if q.truthy then q else .undefined) = readSeq st q := by
  cases q with
  | ref r => simpa [SeqRef.truthy] using readSeq_extends hx hwf
  | num n =>
    simp only [wfSeqRef, decide_eq_true_eq] at hwf
    simp [SeqRef.truthy, hwf, readSeq]
  | undefined => rfl

theorem cloneInsH_reads : ∀ (l : List TxInH) (st st2 : Store),
    (∀ i ∈ l, wfInH st i = true) → Extends (cloneInsH l st).2 st2 →
    (cloneInsH l st).1.map (readInH st2) = l.map (readInH st) := by
  intro l
  induction l with
  | nil => intro st st2 _ _; rfl
  | cons i rest ih =>
    intro st st2 hwf hx
    have hx1 : Extends (st ++ [readScript st i.script]) st2 :=
      extends_trans (cloneInsH_extends rest _) hx
    have hxs : Extends st st2 := extends_trans (extends_append _ _) hx1
    have hwfi := hwf i (by simp)
    have hwfi2 := hwfi
    simp only [wfInH, Bool.and_eq_true, decide_eq_true_eq] at hwfi2
    have hscript : readScript st2 st.length = readScript st i.script := by
      obtain ⟨ex, hex⟩ := hx1
      rw [hex]
      show ((st ++ [readScript st i.script]) ++ ex).getD st.length [] = _
      rw [List.append_assoc]
      exact getD_append_cons st _ ex []
    have hseq := readSeq_truthy_filter hxs hwfi2.2
    simp only [cloneInsH, List.map_cons]
    congr 1
    · simp [readInH, hscript, hseq]
    · rw [ih (st ++ [readScript st i.script]) st2
        (fun j hj => wfInH_extends (extends_append _ _) (hwf j (by simp [hj]))) hx]
      exact map_congr_mem fun j hj =>
        readInH_extends (extends_append _ _) (hwf j (by simp [hj]))

theorem cloneOutsH_reads : ∀ (l : List TxOutH) (st st2 : Store),
    (∀ o ∈ l, wfOutH st o = true) → Extends (cloneOutsH l st).2 st2 →
    (cloneOutsH l st).1.map (readOutH st2) = l.map (readOutH st) := by
  intro l
  induction l with
  | nil => intro st st2 _ _; rfl
  | cons o rest ih =>
    intro st st2 hwf hx
    have hx1 : Extends (st ++ [readScript st o.script]) st2 :=
      extends_trans (cloneOutsH_extends rest _) hx
    have hscript : readScript st2 st.length = readScript st o.script := by
      obtain ⟨ex, hex⟩ := hx1
      rw [hex]
      show ((st ++ [readScript st o.script]) ++ ex).getD st.length [] = _
      rw [List.append_assoc]
      exact getD_append_cons st _ ex []
    simp only [cloneOutsH, List.map_cons]
    congr 1
    · simp [readOutH, hscript]
    · rw [ih (st ++ [readScript st o.script]) st2
        (fun j hj => wfOutH_extends (extends_append _ _) (hwf j (by simp [hj]))) hx]
      exact map_congr_mem fun j hj =>
        readOutH_extends (extends_append _ _) (hwf j (by simp [hj]))

theorem blankIns_reads : ∀ (l : List TxInH) (st st2 : Store),
    Extends (blankIns l st).2 st2 →
    (blankIns l st).1.map (readInH st2) =
      l.map fun i => TxIn.mk i.hash i.index [] (readSeq st2 i.sequence) := by
  intro l
  induction l with
  | nil => intro st st2 _; rfl
  | cons i rest ih =>
    intro st st2 hx
    have hx1 : Extends (st ++ [[]]) st2 := extends_trans (blankIns_extends rest _) hx
    have hscript : readScript st2 st.length = [] := by
      obtain ⟨ex, hex⟩ := hx1
      rw [hex]
      show ((st ++ [[]]) ++ ex).getD st.length [] = _
      rw [List.append_assoc]
      exact getD_append_cons st _ ex []
    simp only [blankIns, List.map_cons]
    congr 1
    · simp [readInH, hscript]
    · exact ih (st ++ [[]]) st2 hx

theorem cloneInsH_proj : ∀ (l : List TxInH) (st st2 : Store),
    (∀ i ∈ l, wfInH st i = true) → Extends (cloneInsH l st).2 st2 →
    ((cloneInsH l st).1.map fun i => TxIn.mk i.hash i.index [] (readSeq st2 i.sequence)) =
      l.map fun i => TxIn.mk i.hash i.index [] (readSeq st i.sequence) := by
  intro l
  induction l with
  | nil => intro st st2 _ _; rfl
  | cons i rest ih =>
    intro st st2 hwf hx
    have hx1 : Extends (st ++ [readScript st i.script]) st2 :=
      extends_trans (cloneInsH_extends rest _) hx
    have hxs : Extends st st2 := extends_trans (extends_append _ _) hx1
    have hwfi := hwf i (by simp)
    simp only [wfInH, Bool.and_eq_true, decide_eq_true_eq] at hwfi
    have hseq := readSeq_truthy_filter hxs hwfi.2
    simp only [cloneInsH, List.map_cons]
    congr 1
    · simp [hseq]
    · rw [ih (st ++ [readScript st i.script]) st2
        (fun j hj => wfInH_extends (extends_append _ _) (hwf j (by simp [hj]))) hx]
      refine map_congr_mem fun j hj => ?_
      have := hwf j (by simp [hj])
      simp only [wfInH, Bool.and_eq_true, decide_eq_true_eq] at this
      rw [readSeq_extends (extends_append _ _) this.2]

theorem map_modifyAt {α β : Type} (g : α → β) (f : α → α) (f2 : β → β)
    (hfg : ∀ x, g (f x) = f2 (g x)) :
    ∀ (k : Nat) (l : List α), (modifyAt k f l).map g = modifyAt k f2 (l.map g)
  | _, [] => by simp [modifyAt]
  | 0, x :: l => by simp [modifyAt, hfg]
  | k + 1, x :: l => by simp [modifyAt, map_modifyAt g f f2 hfg k l]

theorem length_modifyAt {α : Type} (f : α → α) :
    ∀ (k : Nat) (l : List α), (modifyAt k f l).length = l.length
  | _, [] => by simp [modifyAt]
  | 0, _ :: _ => rfl
  | k + 1, _ :: l => by simp [modifyAt, length_modifyAt f k l]

theorem getD_map_lt {α β : Type} (g : α → β) :
    ∀ (l : List α) (k : Nat) (d : α) (d2 : β), k < l.length →
      (l.map g).getD k d2 = g (l.getD k d)
  | [], _, _, _, h => by simp at h
  | _ :: _, 0, _, _, _ => rfl
  | _ :: l, k + 1, d, d2, h => by
    simpa [List.getD] using getD_map_lt g l k d d2 (by simpa using h)

theorem map_setOtherSequencesH (st2 : Store) :
    ∀ (l : List TxInH) (inIndex k : Nat),
      (setOtherSequencesH inIndex k l).map (readInH st2) =
        setOtherSequences inIndex k (l.map (readInH st2))
  | [], _, _ => rfl
  | i :: l, inIndex, k => by
    simp only [setOtherSequencesH, setOtherSequences, List.map_cons,
      map_setOtherSequencesH st2 l inIndex (k + 1)]
    by_cases hk : k ≠ inIndex
    · simp [hk, readInH, readSeq]
    · simp [hk]

theorem length_setOtherSequencesH (inIndex : Nat) :
    ∀ (k : Nat) (l : List TxInH), (setOtherSequencesH inIndex k l).length = l.length
  | _, [] => rfl
  | k, _ :: l => by simp [setOtherSequencesH, length_setOtherSequencesH inIndex (k + 1) l]

/-! ## The heap/value bridge for the signature-hash engine -/

theorem hashTxForSigH_snd (t : TxH) (csRef inIndex hashType : Nat) (st : Store) :
    Extends st (hashTxForSigH t csRef inIndex hashType st).2 := by
  show Extends st (blankIns (cloneH t st).1.ins (cloneH t st).2).2
  exact extends_trans (cloneH_extends t st) (blankIns_extends _ _)

/-- The digest the heap-level engine returns is the double SHA-256 of the
value-level preimage of the observed transaction: the heap engine refines
the pure one. -/
theorem hashTxForSigH_fst {st : Store} {t : TxH} {csRef inIndex hashType : Nat}
    (hwf : wfTxH st t = true) (hcs : csRef < st.length) (hi : inIndex < t.ins.length) :
    (hashTxForSigH t csRef inIndex hashType st).1 =
      dsha256 (sigHashPreimage (readTxH st t) (readScript st csRef) inIndex hashType) := by
  have hwf2 := hwf
  simp only [wfTxH, Bool.and_eq_true, List.all_eq_true] at hwf2
  obtain ⟨hwfIns, hwfOuts⟩ := hwf2
  simp only [hashTxForSigH, cloneH]
  set stM := (cloneInsH t.ins st).2 with hstM
  set lc := (cloneInsH t.ins st).1 with hlc
  set stB := (cloneOutsH t.outs stM).2 with hstB
  set lo := (cloneOutsH t.outs stM).1 with hlo
  set stF := (blankIns lc stB).2 with hstF
  set A := (blankIns lc stB).1 with hA
  have hx1 : Extends st stM := by rw [hstM]; exact cloneInsH_extends _ _
  have hxMB : Extends stM stB := by rw [hstB]; exact cloneOutsH_extends _ _
  have hxBF : Extends stB stF := by rw [hstF]; exact blankIns_extends _ _
  have hxMF : Extends stM stF := extends_trans hxMB hxBF
  have hxF : Extends st stF := extends_trans hx1 hxMF
  have hins : A.map (readInH stF) =
      (t.ins.map (readInH st)).map (fun v => { v with script := ([] : List Nat) }) := by
    rw [hA, blankIns_reads lc stB stF (by rw [← hstF]; exact extends_self _), hlc,
      cloneInsH_proj t.ins st stF hwfIns (by rw [← hstM]; exact hxMF),
      List.map_map]
    rfl
  have houts : lo.map (readOutH stF) = t.outs.map (readOutH st) := by
    rw [hlo, cloneOutsH_reads t.outs stM stF
      (fun o ho => wfOutH_extends hx1 (hwfOuts o ho)) (by rw [← hstB]; exact hxBF)]
    exact map_congr_mem fun o ho => readOutH_extends hx1 (hwfOuts o ho)
  have hcsF : readScript stF csRef = readScript st csRef := readScript_extends hxF hcs
  have hmod : (modifyAt inIndex (fun (i : TxInH) => { i with script := csRef }) A).map
        (readInH stF) =
      modifyAt inIndex (fun (v : TxIn) => { v with script := readScript st csRef })
        ((t.ins.map (readInH st)).map fun v => { v with script := ([] : List Nat) }) := by
    rw [map_modifyAt (readInH stF) _
      (fun v => { v with script := readScript stF csRef }) (fun x => rfl), hins, hcsF]
  have hlenA : A.length = t.ins.length := by rw [hA, blankIns_length, hlc, cloneInsH_length]
  have hlenM : (modifyAt inIndex (fun (i : TxInH) => { i with script := csRef }) A).length =
      t.ins.length := by rw [length_modifyAt, hlenA]
  have hltA : inIndex < (modifyAt inIndex
      (fun (i : TxInH) => { i with script := csRef }) A).length := by
    rw [hlenM]; exact hi
  have hltS : inIndex < (setOtherSequencesH inIndex 0 (modifyAt inIndex
      (fun (i : TxInH) => { i with script := csRef }) A)).length := by
    rw [length_setOtherSequencesH, hlenM]; exact hi
  simp only [sigHashPreimage, sigHashTmpTx, readTxH]
  by_cases h31 : hashType &&& 31 = SIGHASH_NONE <;>
    by_cases h80 : hashType &&& SIGHASH_ANYONECANPAY ≠ 0
  · simp only [if_pos h31, if_pos h80, List.map_cons, List.map_nil]
    rw [← getD_map_lt (readInH stF) _ inIndex defaultTxInH defaultTxIn hltS,
      map_setOtherSequencesH, hmod]
  · simp only [if_pos h31, if_neg h80, List.map_nil]
    rw [map_setOtherSequencesH, hmod]
  · simp only [if_neg h31, if_pos h80, List.map_cons, List.map_nil]
    rw [← getD_map_lt (readInH stF) _ inIndex defaultTxInH defaultTxIn hltA,
      hmod, houts]
  · simp only [if_neg h31, if_neg h80]
    rw [hmod, houts]

/-- The clone observes the same transaction value as the original. -/
theorem cloneH_reads {st : Store} {t : TxH} (hwf : wfTxH st t = true) :
    readTxH (cloneH t st).2 (cloneH t st).1 = readTxH st t := by
  simp only [wfTxH, Bool.and_eq_true, List.all_eq_true] at hwf
  obtain ⟨hwfIns, hwfOuts⟩ := hwf
  simp only [cloneH, readTxH]
  rw [cloneInsH_reads t.ins st _ hwfIns (cloneOutsH_extends _ _),
    cloneOutsH_reads t.outs _ _
      (fun o ho => wfOutH_extends (cloneInsH_extends t.ins st) (hwfOuts o ho))
      (extends_self _)]
  rw [map_congr_mem fun o ho =>
    readOutH_extends (cloneInsH_extends t.ins st) (hwfOuts o ho)]

theorem getD_mem {α : Type} :
    ∀ (l : List α) (k : Nat) (d : α), k < l.length → l.getD k d ∈ l
  | [], _, _, h => by simp at h
  | x :: _, 0, _, _ => by simp [List.getD]
  | _ :: l, k + 1, d, h => by
    simp only [List.getD] at *
    exact List.mem_cons_of_mem _ (getD_mem l k d (by simpa using h))

/-- Writing an array at a reference at or past the end of `st` cannot change
what a transaction well-formed over `st` observes. -/
theorem readTxH_set_fresh {st st2 : Store} {t : TxH} {r : Nat} {v : List Nat}
    (hwf : wfTxH st t = true) (hr : st.length ≤ r) :
    readTxH (storeSet st2 r v) t = readTxH st2 t := by
  simp only [wfTxH, Bool.and_eq_true, List.all_eq_true] at hwf
  simp only [readTxH]
  have hins : ∀ i ∈ t.ins, readInH (storeSet st2 r v) i = readInH st2 i := by
    intro i hi
    have hwfi := hwf.1 i hi
    simp only [wfInH, Bool.and_eq_true, decide_eq_true_eq] at hwfi
    have hseq : readSeq (storeSet st2 r v) i.sequence = readSeq st2 i.sequence := by
      refine readSeq_set_ref_ne fun p hp => ?_
      rw [hp] at hwfi
      simp only [wfSeqRef, decide_eq_true_eq] at hwfi
      omega
    simp [readInH, readScript_set_ne (show i.script ≠ r by omega), hseq]
  have houts : ∀ o ∈ t.outs, readOutH (storeSet st2 r v) o = readOutH st2 o := by
    intro o ho
    have hwfo := hwf.2 o ho
    simp only [wfOutH, decide_eq_true_eq] at hwfo
    simp [readOutH, readScript_set_ne (show o.script ≠ r by omega)]
  rw [map_congr_mem hins, map_congr_mem houts]

/-! ## Concrete fixtures used by the claim evaluations -/

/-- A canonical 64-character lowercase hex string: 64 copies of the code of
the character 0. -/
def hashHex64 : List Nat := List.replicate 64 48

def inFirst : TxIn := { hash := hashHex64, index := 0, script := [], sequence := .arr [255, 255, 255, 255] }

def inSecond : TxIn := { hash := hashHex64, index := 1, script := [], sequence := .arr [255, 255, 255, 255] }

/-- One input, one output. -/
def txOne : Tx := { version := 1, locktime := 0, ins := [inFirst], outs := [{ value := 7, script := [] }] }

/-- `txOne` with a second input appended. -/
def txTwo : Tx := { version := 1, locktime := 0, ins := [inFirst, inSecond], outs := [{ value := 7, script := [] }] }

/-- A transaction whose version field is 0. -/
def txVersion0 : Tx := { version := 0, locktime := 0, ins := [], outs := [] }

/-- A well-formed transaction exercising every field. -/
def txFull : Tx :=
  { version := 2, locktime := 9,
    ins := [{ hash := hashHex64, index := 3, script := [81, 82], sequence := .arr [1, 2, 3, 4] }],
    outs := [{ value := 50000, script := [118, 169] }] }

/-- A two-array store: array 0 is a script buffer, array 1 a sequence
array. -/
def stTwo : Store := [[170], [255, 255, 255, 255]]

/-- A heap transaction over `stTwo`: one input whose script is array 0 and
whose sequence is array 1. -/
def tHeap : TxH :=
  { version := 1, locktime := 0,
    ins := [{ hash := hashHex64, index := 0, script := 0, sequence := .ref 1 }],
    outs := [] }

/-! ## Claim C1 -/

/-- C1: the source defines `SIGHASH_ANYONECANPAY` as the decimal literal 80
(0x50), not the protocol bit 0x80, so a hash type of ALL|0x80 = 0x81 = 129
satisfies `129 & 80 = 0` and does NOT trigger the input-isolation branch:
the modified clone keeps both inputs of the two-input transaction, and
appending an input to the one-input transaction changes the ALL|0x80
digest.  This evaluates the code at that failing input (the claim itself
describes the protocol behavior the constant was meant to implement). -/
theorem claim_C1_anyonecanpay :
    129 &&& SIGHASH_ANYONECANPAY = 0 ∧
    (sigHashTmpTx txTwo [] 0 129).ins.length = 2 ∧
    sigHashDigest txTwo [] 0 129 ≠ sigHashDigest txOne [] 0 129 :=
  ⟨by decide, by decide, by decide⟩

/-! ## Claim C2 -/

/-- C2 counterexample: the claim quantifies over every transaction, any
version included, but a version-0 transaction does not round trip: the
`Transaction` constructor treats the deserialized version 0 as falsy and
replaces it with the default 1. -/
theorem claim_C2_counterexample :
    Transaction.deserialize (Tx.serialize txVersion0) ≠ txVersion0 ∧
    (Transaction.deserialize (Tx.serialize txVersion0)).version = 1 ∧
    txVersion0.version = 0 :=
  ⟨by decide, by decide, by decide⟩

/-- C2 (amended): for every well-formed transaction (fields in the data
model ranges of spec section 3, varint-encoded counts and script lengths
below 2^16 because of the misread 0xFE/0xFF varint widths) whose version is
nonzero, `deserialize (serialize t)` reproduces `t` field-for-field. -/
theorem claim_C2_roundtrip (t : Tx) (hwf : wfTx t = true) (hv : t.version ≠ 0) :
    Transaction.deserialize (Tx.serialize t) = t :=
  deserialize_serialize hwf hv

theorem claim_C2_witness :
    wfTx txFull = true ∧ txFull.version ≠ 0 ∧
    Transaction.deserialize (Tx.serialize txFull) = txFull :=
  ⟨by decide, by decide, claim_C2_roundtrip txFull (by decide) (by decide)⟩

/-! ## Claim C3 -/

/-- C3 counterexample: the 10-byte buffer encoding version 0, no inputs, no
outputs, locktime 0 follows the wire layout of spec section 4.1, but
reserializing its deserialization yields version 1 instead, so
`serialize (deserialize b) = b` fails.  (The first conjunct exhibits the
buffer as the serialization of a well-formed transaction.) -/
theorem claim_C3_counterexample :
    Tx.serialize txVersion0 = [0, 0, 0, 0, 0, 0, 0, 0, 0, 0] ∧
    wfTx txVersion0 = true ∧
    Tx.serialize (Transaction.deserialize [0, 0, 0, 0, 0, 0, 0, 0, 0, 0]) ≠
      [0, 0, 0, 0, 0, 0, 0, 0, 0, 0] :=
  ⟨by decide, by decide, by decide⟩

/-- C3 (amended): for every buffer that is the wire encoding (per the
layout of spec section 4.1, with canonical varints below 2^16) of a
well-formed transaction with nonzero version, deserializing and
reserializing reproduces the buffer byte for byte. -/
theorem claim_C3_reserialize (b : List Nat)
    (h : ∃ t, wfTx t = true ∧ t.version ≠ 0 ∧ Tx.serialize t = b) :
    Tx.serialize (Transaction.deserialize b) = b := by
  obtain ⟨t, hwf, hv, rfl⟩ := h
  rw [deserialize_serialize hwf hv]

theorem claim_C3_witness :
    (∃ t, wfTx t = true ∧ t.version ≠ 0 ∧ Tx.serialize t = Tx.serialize txFull) ∧
    Tx.serialize (Transaction.deserialize (Tx.serialize txFull)) = Tx.serialize txFull :=
  ⟨⟨txFull, by decide, by decide, rfl⟩,
    claim_C3_reserialize (Tx.serialize txFull) ⟨txFull, by decide, by decide, rfl⟩⟩

/-! ## Claim C4 -/

/-- C4: the SINGLE branch of the source is an empty TODO, so for every
transaction, connected script and input index, a hash type of 3 produces
exactly the modified clone that hash type ALL produces, and the returned
digest is the double SHA-256 of that ALL-shaped clone followed by the
bytes of hash type 3 — no NotImplemented error exists anywhere in the
code path. -/
theorem claim_C4_single_as_all (t : Tx) (cs : List Nat) (i : Nat) :
    sigHashTmpTx t cs i 3 = sigHashTmpTx t cs i 1 ∧
    sigHashDigest t cs i 3 =
      dsha256 ((sigHashTmpTx t cs i 1).serialize ++ numToBytes 3 4) :=
  ⟨rfl, rfl⟩

/-! ## Claim C5 -/

/-- C5: `deserialize` has no bounds checks and no error path at all: on the
6-byte truncated buffer holding version 1, zero input and output counts and
NO locktime field (the 4-byte locktime read exceeds the 0 remaining bytes),
it returns a fully formed transaction instead of raising.  In JS the
out-of-range locktime read yields `NaN`, which the constructor's falsy
check replaces with the default 0, exactly as the model's out-of-range 0
is; both return the same transaction. -/
theorem claim_C5_truncated :
    Transaction.deserialize [1, 0, 0, 0, 0, 0] =
      { version := 1, locktime := 0, ins := [], outs := [] } := by
  decide

/-! ## Claim C6 -/

/-- C6: under SIGHASH_NONE (hash type 2) the other input's sequence field is
assigned the NUMBER 0, which `serialize` appends as a SINGLE 0x00 byte —
not a 4-byte field: the serialized input block is 38 bytes (32 hash + 4
index + 1 script varint + 1 sequence byte) instead of 41.  The signing
input keeps its original 4-byte sequence and the outputs are dropped. -/
theorem claim_C6_none_sequence :
    ((sigHashTmpTx txTwo [] 0 2).ins.getD 1 defaultTxIn).sequence = SeqVal.num 0 ∧
    ((sigHashTmpTx txTwo [] 0 2).ins.getD 0 defaultTxIn).sequence =
      SeqVal.arr [255, 255, 255, 255] ∧
    (sigHashTmpTx txTwo [] 0 2).outs = [] ∧
    serializeIn ((sigHashTmpTx txTwo [] 0 2).ins.getD 1 defaultTxIn) =
      List.replicate 32 0 ++ [1, 0, 0, 0] ++ [0] ++ [0] ∧
    (serializeIn ((sigHashTmpTx txTwo [] 0 2).ins.getD 1 defaultTxIn)).length = 38 :=
  ⟨by decide, by decide, by decide, by decide, by decide⟩

/-! ## Claim C7 -/

/-- C7: a `TransactionIn` constructed from an outpoint document WITHOUT a
sequence value gets `undefined`, not 0xFFFFFFFF, because the constructor
falls back to `this.defaultSequence`, a field that exists on `Transaction`
instances but not on `TransactionIn`; only the `addInput` path, which
passes the transaction's `defaultSequence` explicitly, yields the 4-byte
array [255, 255, 255, 255]. -/
theorem claim_C7_default_sequence :
    (TransactionIn.make hashHex64 0 [] SeqVal.undefined).sequence = SeqVal.undefined ∧
    ((Tx.addInput { version := 1, locktime := 0, ins := [], outs := [] }
        hashHex64 0).ins.getD 0 defaultTxIn).sequence =
      SeqVal.arr [255, 255, 255, 255] :=
  ⟨by decide, by decide⟩

/-! ## Claim C8 -/

/-- C8 counterexample: `TransactionIn.clone` passes `this.sequence` through
unchanged, so the clone's input holds the SAME sequence array reference as
the original (reference 1 here); overwriting that array through the clone
changes what the original transaction observes. -/
theorem claim_C8_counterexample :
    ((cloneH tHeap stTwo).1.ins.getD 0 defaultTxInH).sequence = SeqRef.ref 1 ∧
    (tHeap.ins.getD 0 defaultTxInH).sequence = SeqRef.ref 1 ∧
    readTxH (storeSet (cloneH tHeap stTwo).2 1 [0, 0, 0, 0]) tHeap ≠ readTxH stTwo tHeap :=
  ⟨by decide, by decide, by decide⟩

/-- C8 (amended): `clone` observes the same version, locktime, inputs and
outputs as the original, and the script buffers are NOT shared — writing
any clone input's script buffer leaves every observation of the original
unchanged.  (The 4-byte sequence arrays, by contrast, ARE shared; see the
counterexample.) -/
theorem claim_C8_clone_isolation (st : Store) (t : TxH) (hwf : wfTxH st t = true) :
    readTxH (cloneH t st).2 (cloneH t st).1 = readTxH st t ∧
    ∀ j, j < (cloneH t st).1.ins.length → ∀ v,
      readTxH (storeSet (cloneH t st).2
        (((cloneH t st).1.ins.getD j defaultTxInH).script) v) t = readTxH st t := by
  constructor
  · exact cloneH_reads hwf
  · intro j hj v
    have hfresh : st.length ≤ ((cloneH t st).1.ins.getD j defaultTxInH).script := by
      refine cloneInsH_fresh t.ins st _ ?_
      have : (cloneH t st).1.ins = (cloneInsH t.ins st).1 := rfl
      rw [this] at hj ⊢
      exact getD_mem _ j _ hj
    rw [readTxH_set_fresh hwf hfresh, readTxH_extends (cloneH_extends t st) hwf]

theorem claim_C8_witness :
    wfTxH stTwo tHeap = true ∧
    readTxH (cloneH tHeap stTwo).2 (cloneH tHeap stTwo).1 = readTxH stTwo tHeap ∧
    readTxH (storeSet (cloneH tHeap stTwo).2
      (((cloneH tHeap stTwo).1.ins.getD 0 defaultTxInH).script) [9]) tHeap =
      readTxH stTwo tHeap :=
  ⟨by decide, (claim_C8_clone_isolation stTwo tHeap (by decide)).1,
    (claim_C8_clone_isolation stTwo tHeap (by decide)).2 0 (by decide) [9]⟩

/-! ## Claim C9 -/

/-- C9: the signature-hash engine is deterministic and effect-free on its
inputs: it only allocates (the store grows; nothing reachable from the
original transaction is written), so after one call the original
transaction observes exactly the same value, and a second call with the
same arguments returns the same digest. -/
theorem claim_C9_determinism (st : Store) (t : TxH) (csRef inIndex hashType : Nat)
    (hwf : wfTxH st t = true) (hcs : csRef < st.length) (hi : inIndex < t.ins.length) :
    readTxH (hashTxForSigH t csRef inIndex hashType st).2 t = readTxH st t ∧
    (hashTxForSigH t csRef inIndex hashType
        ((hashTxForSigH t csRef inIndex hashType st).2)).1 =
      (hashTxForSigH t csRef inIndex hashType st).1 := by
  have hx := hashTxForSigH_snd t csRef inIndex hashType st
  refine ⟨readTxH_extends hx hwf, ?_⟩
  rw [hashTxForSigH_fst (wfTxH_extends hx hwf)
      (lt_of_lt_of_le hcs (extends_length_le hx)) hi,
    hashTxForSigH_fst hwf hcs hi,
    readTxH_extends hx hwf, readScript_extends hx hcs]

theorem claim_C9_witness :
    wfTxH stTwo tHeap = true ∧ 0 < stTwo.length ∧ 0 < tHeap.ins.length ∧
    (readTxH (hashTxForSigH tHeap 0 0 1 stTwo).2 tHeap = readTxH stTwo tHeap ∧
     (hashTxForSigH tHeap 0 0 1 ((hashTxForSigH tHeap 0 0 1 stTwo).2)).1 =
       (hashTxForSigH tHeap 0 0 1 stTwo).1) :=
  ⟨by decide, by decide, by decide,
    claim_C9_determinism stTwo tHeap 0 0 1 (by decide) (by decide) (by decide)⟩

/-! ## Claim C10 -/

/-- C10: any buffer whose 4-byte little-endian version field holds 0
deserializes to a transaction with version 1: the `Transaction` constructor
treats the falsy 0 as absent and keeps the default. -/
theorem claim_C10_zero_version (rest : List Nat) :
    (Transaction.deserialize (0 :: 0 :: 0 :: 0 :: rest)).version = 1 := by
  have h4 : readAsInt (0 :: 0 :: 0 :: 0 :: rest) 0 4 = (0, 4) := by
    have h : (0 :: 0 :: 0 :: 0 :: rest).drop 0 = numToBytes 0 4 ++ rest := by
      simp [numToBytes]
    exact readAsInt_spec 4 0 0 rest h (by norm_num)
  simp [Transaction.deserialize, h4, Tx.ofDoc]
